import Mathlib

/-!
# cm-stat: annotation counting and ranking

A shallow embedding of `main.go`: the two frequency tables, the counting loop
of `processFile`, the recursive walk of `extractComments`, the exchange sort of
`sortBlamersByCount` and the two report writers.

Modelling conventions.

* A Go `map[string]int` is an association list holding one pair per key that is
  present; reading an absent key yields the zero value, and `counts[k]++`
  inserts the key with value `1` when it is absent.  The order in which a
  `range` loop yields the keys is not fixed by the language, so every function
  that ranges over a table takes that order as an argument.
* The counts of the tables are natural numbers, so `counts[k]++` never wraps
  there.  A Go `int` has 64 bits; the section on 64-bit counts gives the same
  counting code on integers that wrap, the two agree as long as no count passes
  the largest 64-bit value (`countMatches64_toTables64`), and the property
  that depends on the sign of a count is stated on the 64-bit code.
* Text is a list of Unicode characters.  The pattern only inspects ASCII
  characters and the newline, so bytes that are not valid UTF-8 (which Go's
  matcher reads as U+FFFD) behave like any other non-newline character.
* A file is written by successive `WriteString` calls; the model records the
  list of written chunks, and the file content is their concatenation.  The
  code discards the result of every `WriteString`, and the writers are modelled
  from the point where `os.Create` has succeeded.
* A file tree is a finite tree of entries; each entry carries what reading or
  listing its path returns, so a path is identified with its node.
-/

namespace CmStat

/-! ## Frequency tables -/

/-- A Go `map[string]int`. -/
abbrev Table := List (String × Nat)

/-- The pair of package-level tables `todoCounts` and `fixmeCounts`. -/
structure Tables where
  todoCounts : Table
  fixmeCounts : Table
deriving DecidableEq, Repr

/-- The tables as created by `make(map[string]int)`. -/
def Tables.empty : Tables := ⟨[], []⟩

/-- The expression `counts[k]`: the stored count, or `0` when `k` is absent. -/
def getCount : Table → String → Nat
  | [], _ => 0
  | (k, v) :: rest, b => if k = b then v else getCount rest b

/-- The statement `counts[k]++` on unbounded counts; `increment64` below is the
same statement on Go's 64-bit `int`, and the two agree while the stored count is
below the largest 64-bit value. -/
def increment : Table → String → Table
  | [], b => [(b, 1)]
  | (k, v) :: rest, b => if k = b then (k, v + 1) :: rest else (k, v) :: increment rest b

/-- The keys present in a table. -/
def keys (t : Table) : List String := t.map Prod.fst

/-- The sum of all counts of a table. -/
def total (t : Table) : Nat := (t.map Prod.snd).sum

/-! ## The annotation pattern

`commentRegex` is `\/\/\s*(TODO|FIXME|todo|fixme)\((\w+)\):\s*(.+)`, matched
with Go's leftmost-first semantics: alternatives are tried left to right and a
greedy repetition gives characters back only when the rest fails. -/

/-- One element of `FindAllStringSubmatch`: `match[1]`, `match[2]`, `match[3]`. -/
structure Submatch where
  kind : String
  blamer : String
  comment : String
deriving DecidableEq, Repr

/-- The class `\s`: tab, newline, form feed, carriage return, space. -/
def isSpaceChar (c : Char) : Bool :=
  c == '\t' || c == '\n' || c == '\x0c' || c == '\r' || c == ' '

/-- The class `\w`: ASCII letters, digits and the underscore. -/
def isWordChar (c : Char) : Bool :=
  c.isAlphanum || c == '_'

/-- The class `.`: every character except the newline. -/
def isDotChar (c : Char) : Bool :=
  c != '\n'

/-- Match a literal at the start of the text and return what follows it. -/
def stripLiteral : List Char → List Char → Option (List Char)
  | [], cs => some cs
  | _ :: _, [] => none
  | p :: ps, c :: cs => if p = c then stripLiteral ps cs else none

/-- The group `(TODO|FIXME|todo|fixme)`, alternatives tried left to right. -/
def matchKind (cs : List Char) : Option (String × List Char) :=
  match stripLiteral "TODO".toList cs with
  | some rest => some ("TODO", rest)
  | none =>
  match stripLiteral "FIXME".toList cs with
  | some rest => some ("FIXME", rest)
  | none =>
  match stripLiteral "todo".toList cs with
  | some rest => some ("todo", rest)
  | none =>
  match stripLiteral "fixme".toList cs with
  | some rest => some ("fixme", rest)
  | none => none

/-- The group `(.+)`: the longest non-empty run of non-newline characters. -/
def matchDots (cs : List Char) : Option (String × List Char) :=
  match cs.span isDotChar with
  | ([], _) => none
  | (body, rest) => some (String.mk body, rest)

/-- The tail `\s*(.+)`: the greedy `\s*` first tries to take one more space and
falls back to ending here when the rest does not match after it. -/
def matchTail : List Char → Option (String × List Char)
  | [] => none
  | c :: cs =>
    if isSpaceChar c then
      match matchTail cs with
      | some r => some r
      | none => matchDots (c :: cs)
    else matchDots (c :: cs)

/-- One attempt of the whole pattern at the start of the text: the submatch and
the text left after the match.  The first `\s*` and `\w+` never need to give
characters back, since the character that stops each run cannot start what
follows when it is moved to an earlier position. -/
def matchAt (cs : List Char) : Option (Submatch × List Char) :=
  match stripLiteral "//".toList cs with
  | none => none
  | some afterSlashes =>
  match matchKind (afterSlashes.dropWhile isSpaceChar) with
  | none => none
  | some (kind, afterKind) =>
  match stripLiteral "(".toList afterKind with
  | none => none
  | some afterParen =>
  match afterParen.span isWordChar with
  | ([], _) => none
  | (blamer, afterBlamer) =>
  match stripLiteral "):".toList afterBlamer with
  | none => none
  | some afterColon =>
  match matchTail afterColon with
  | none => none
  | some (comment, rest) => some (⟨kind, String.mk blamer, comment⟩, rest)

/-- The scan of `FindAllStringSubmatch`: `skip` characters still belong to the
previous match; at every other position the pattern is attempted, and the first
position where it matches gives the next match. -/
def findAllFrom : Nat → List Char → List Submatch
  | _, [] => []
  | skip + 1, _ :: cs => findAllFrom skip cs
  | 0, c :: cs =>
    match matchAt (c :: cs) with
    | some (m, rest) => m :: findAllFrom (cs.length - rest.length) cs
    | none => findAllFrom 0 cs

/-- The call `commentRegex.FindAllStringSubmatch(fileContent, -1)`. -/
def FindAllStringSubmatch (fileContent : String) : List Submatch :=
  findAllFrom 0 fileContent.toList

/-! ## `processFile` -/

/-- The call `strings.ToUpper`, character by character.  It agrees with Go on
ASCII text, which is all the pattern lets through as a kind. -/
def ToUpper (s : String) : String :=
  String.mk (s.toList.map Char.toUpper)

/-- One iteration of the loop over the matches: the `switch` on the upper-cased
kind, whose lower-case arms can never be taken. -/
def countMatch (st : Tables) (m : Submatch) : Tables :=
  let commentType := ToUpper m.kind
  if commentType = "TODO" then ⟨increment st.todoCounts m.blamer, st.fixmeCounts⟩
  else if commentType = "FIXME" then ⟨st.todoCounts, increment st.fixmeCounts m.blamer⟩
  else if commentType = "todo" then ⟨increment st.todoCounts m.blamer, st.fixmeCounts⟩
  else if commentType = "fixme" then ⟨st.todoCounts, increment st.fixmeCounts m.blamer⟩
  else st

/-- The loop `for _, match := range matches`. -/
def countMatches (st : Tables) (found : List Submatch) : Tables :=
  found.foldl countMatch st

/-- An I/O error value, as returned by `ioutil.ReadDir` or `ioutil.ReadFile`. -/
abbrev GoError := String

/-- The function `processFile`, given what `ioutil.ReadFile` returned for the
path: the tables afterwards and the returned error (`none` for `nil`). -/
def processFile (read : Except GoError String) (st : Tables) : Tables × Option GoError :=
  match read with
  | .error err => (st, some err)
  | .ok fileContent => (countMatches st (FindAllStringSubmatch fileContent), none)

/-! ## `extractComments` -/

/-- One entry of a directory as the walk sees it: a non-directory together with
what `ioutil.ReadFile` returns for its path, or a directory together with what
`ioutil.ReadDir` returns for its path. -/
inductive Entry where
  | file (name : String) (read : Except GoError String)
  | dir (name : String) (listing : Except GoError (List Entry))

/-- The constant `codeFileSuffix`. -/
def codeFileSuffix : String := ".rs"

/-- The call `strings.HasSuffix`.  The suffix used is ASCII, so comparing
characters agrees with comparing bytes. -/
def HasSuffix (s suffix : String) : Bool :=
  suffix.toList.isSuffixOf s.toList

mutual
/-- The function `extractComments`, given what `ioutil.ReadDir` returned for
`dirPath`: the tables afterwards and the returned error (`none` for `nil`). -/
def extractComments : Except GoError (List Entry) → Tables → Tables × Option GoError
  | .error err, st => (st, some err)
  | .ok files, st => extractLoop files st
/-- The loop `for _, file := range files` of `extractComments`: it returns as
soon as the body returns an error. -/
def extractLoop : List Entry → Tables → Tables × Option GoError
  | [], st => (st, none)
  | file :: rest, st =>
    match extractEntry file st with
    | (st1, some err) => (st1, some err)
    | (st1, none) => extractLoop rest st1
/-- The body of that loop for one entry: the recursive call on a directory,
`processFile` on a non-directory whose name has the suffix, nothing otherwise. -/
def extractEntry : Entry → Tables → Tables × Option GoError
  | .dir _ listing, st => extractComments listing st
  | .file name read, st =>
    if HasSuffix name codeFileSuffix then processFile read st else (st, none)
end

/-! ## `sortBlamersByCount` -/

/-- The first loop of `sortBlamersByCount`: every key the `range` yields is
appended to the slice. -/
def collectBlamers (order : List String) : List String :=
  order.foldl (fun blamers blamer => blamers ++ [blamer]) []

/-- The assignment `blamers[i], blamers[j] = blamers[j], blamers[i]`. -/
def swap (blamers : List String) (i j : Nat) : List String :=
  (blamers.set i (blamers.getD j "")).set j (blamers.getD i "")

/-- The loop `for j := i + 1; j < len(blamers); j++`, entered at index `j` with
`n = len(blamers) - j` iterations left. -/
def innerLoop (counts : Table) (i : Nat) : Nat → Nat → List String → List String
  | 0, _, blamers => blamers
  | n + 1, j, blamers =>
    innerLoop counts i n (j + 1)
      (if getCount counts (blamers.getD j "") > getCount counts (blamers.getD i "")
       then swap blamers i j else blamers)

/-- The loop `for i := 0; i < len(blamers)-1; i++`, entered at index `i` with
`n = len(blamers) - 1 - i` iterations left. -/
def outerLoop (counts : Table) : Nat → Nat → List String → List String
  | 0, _, blamers => blamers
  | n + 1, i, blamers =>
    outerLoop counts n (i + 1) (innerLoop counts i (blamers.length - (i + 1)) (i + 1) blamers)

/-- The function `sortBlamersByCount`; `order` is the order in which the
`range` over `counts` yields the keys. -/
def sortBlamersByCount (counts : Table) (order : List String) : List String :=
  let blamers := collectBlamers order
  outerLoop counts (blamers.length - 1) 0 blamers

/-! ## The report writers -/

/-- The variable `topTodoBlamer`. -/
def topTodoBlamer : Nat := 5

/-- The call `fmt.Sprintf("%d. %s\n", i+1, blamer)`. -/
def rankLine (i : Nat) (blamer : String) : String :=
  toString (i + 1) ++ ". " ++ blamer ++ "\n"

/-- The loop of `writeTopBlamer`, entered at index `i`; it stops as soon as
`i < topN && i < len(sortedBlamers)` fails, which happens before the recursion
bound `len(sortedBlamers) + 1` is used up. -/
def topBlamerLoop (topN : Nat) (sortedBlamers : List String) : Nat → Nat → List String
  | 0, _ => []
  | fuel + 1, i =>
    if i < topN ∧ i < sortedBlamers.length then
      rankLine i (sortedBlamers.getD i "") :: topBlamerLoop topN sortedBlamers fuel (i + 1)
    else []

/-- The function `writeTopBlamer`: the chunks it writes, with the limit (the
package variable `topTodoBlamer`) as a parameter. -/
def writeTopBlamer (topN : Nat) (counts : Table) (order : List String) : List String :=
  let sortedBlamers := sortBlamersByCount counts order
  topBlamerLoop topN sortedBlamers (sortedBlamers.length + 1) 0

/-- The function `writeTopTodoBlamer`: the chunks written to
`top_todo_blamer.txt` once the file is created. -/
def writeTopTodoBlamer (st : Tables) (todoOrder fixmeOrder : List String) : List String :=
  ["Top TODO Blamer:\n"] ++ writeTopBlamer topTodoBlamer st.todoCounts todoOrder
    ++ ["\nTop FIXME Blamer:\n"] ++ writeTopBlamer topTodoBlamer st.fixmeCounts fixmeOrder

/-- The function `writeCounts`: one chunk per key the `range` yields, then the
blank line. -/
def writeCounts (counts : Table) (order : List String) : List String :=
  order.map (fun blamer => blamer ++ ": " ++ toString (getCount counts blamer) ++ "\n")
    ++ ["\n"]

/-- The function `writeTodoCounts`: the chunks written to `todo_counts.txt`
once the file is created. -/
def writeTodoCounts (st : Tables) (todoOrder fixmeOrder : List String) : List String :=
  ["TODO\n"] ++ writeCounts st.todoCounts todoOrder
    ++ ["FIXME\n"] ++ writeCounts st.fixmeCounts fixmeOrder

/-- The content of a file after the given chunks were written to it. -/
def fileText (chunks : List String) : String :=
  String.join chunks

/-- A `range` over a table yields every key exactly once, in some order. -/
def Enumerates (order : List String) (counts : Table) : Prop :=
  order.Nodup ∧ ∀ b, b ∈ order ↔ b ∈ keys counts

instance (order : List String) (counts : Table) : Decidable (Enumerates order counts) :=
  decidable_of_iff (order.Nodup ∧ (∀ b ∈ order, b ∈ keys counts) ∧ ∀ b ∈ keys counts, b ∈ order)
    ⟨fun h => ⟨h.1, fun b => ⟨h.2.1 b, h.2.2 b⟩⟩,
     fun h => ⟨h.1, fun b hb => (h.2 b).1 hb, fun b hb => (h.2 b).2 hb⟩⟩

/-! ## 64-bit counts

The counting code of `processFile` once more, with the counts as Go's `int`:
integers from `-2^63` to `2^63 - 1` on which `++` wraps. -/

/-- The largest value of a Go `int` on a 64-bit platform. -/
def maxInt64 : Int := 9223372036854775807

/-- The result of 64-bit signed arithmetic: the value reduced modulo `2^64` into
the range from `-2^63` to `2^63 - 1`. -/
def wrapInt64 (x : Int) : Int :=
  (x + 9223372036854775808) % 18446744073709551616 - 9223372036854775808

/-- A Go `map[string]int` with its counts as 64-bit integers. -/
abbrev Table64 := List (String × Int)

/-- The pair of package-level tables, with 64-bit counts. -/
structure Tables64 where
  todoCounts : Table64
  fixmeCounts : Table64
deriving DecidableEq, Repr

/-- The expression `counts[k]` on 64-bit counts. -/
def getCount64 : Table64 → String → Int
  | [], _ => 0
  | (k, v) :: rest, b => if k = b then v else getCount64 rest b

/-- The statement `counts[k]++` on 64-bit counts: the sum wraps. -/
def increment64 : Table64 → String → Table64
  | [], b => [(b, 1)]
  | (k, v) :: rest, b =>
    if k = b then (k, wrapInt64 (v + 1)) :: rest else (k, v) :: increment64 rest b

/-- The keys present in a table with 64-bit counts. -/
def keys64 (t : Table64) : List String := t.map Prod.fst

/-- One iteration of the loop over the matches, on 64-bit counts. -/
def countMatch64 (st : Tables64) (m : Submatch) : Tables64 :=
  let commentType := ToUpper m.kind
  if commentType = "TODO" then ⟨increment64 st.todoCounts m.blamer, st.fixmeCounts⟩
  else if commentType = "FIXME" then ⟨st.todoCounts, increment64 st.fixmeCounts m.blamer⟩
  else if commentType = "todo" then ⟨increment64 st.todoCounts m.blamer, st.fixmeCounts⟩
  else if commentType = "fixme" then ⟨st.todoCounts, increment64 st.fixmeCounts m.blamer⟩
  else st

/-- The loop `for _, match := range matches`, on 64-bit counts. -/
def countMatches64 (st : Tables64) (found : List Submatch) : Tables64 :=
  found.foldl countMatch64 st

/-- The function `processFile`, on 64-bit counts. -/
def processFile64 (read : Except GoError String) (st : Tables64) : Tables64 × Option GoError :=
  match read with
  | .error err => (st, some err)
  | .ok fileContent => (countMatches64 st (FindAllStringSubmatch fileContent), none)

/-- The tables as created by `make(map[string]int)`, with 64-bit counts. -/
def Tables64.empty : Tables64 := ⟨[], []⟩

/-! ## Definitions used to state the properties -/

/-- The kinds the pattern can capture. -/
def knownKinds : List String := ["TODO", "FIXME", "todo", "fixme"]

/-- A match counted as a TODO by the claim: its kind is `TODO` or `todo`. -/
def isTodo (m : Submatch) : Bool := m.kind = "TODO" || m.kind = "todo"

/-- A match counted as a FIXME by the claim: its kind is `FIXME` or `fixme`. -/
def isFixme (m : Submatch) : Bool := m.kind = "FIXME" || m.kind = "fixme"

/-- The tables after `processFile` has handled the given file contents in turn. -/
def processAll (st : Tables) (contents : List String) : Tables :=
  contents.foldl (fun acc fileContent => (processFile (.ok fileContent) acc).1) st

mutual
/-- What a walk that never gives up meets below a directory, in depth-first
listing order: the outcome of listing a directory that cannot be listed, and
the outcome of reading every non-directory whose name ends with the suffix. -/
def visits : Except GoError (List Entry) → List (Except GoError String)
  | .error err => [.error err]
  | .ok files => visitsLoop files
/-- The visits below the entries of one directory. -/
def visitsLoop : List Entry → List (Except GoError String)
  | [] => []
  | file :: rest => visitsEntry file ++ visitsLoop rest
/-- The visits at and below one entry. -/
def visitsEntry : Entry → List (Except GoError String)
  | .dir _ listing => visits listing
  | .file name read => if HasSuffix name codeFileSuffix then [read] else []
end

/-- The contents read before the first failing visit. -/
def readBeforeFailure : List (Except GoError String) → List String
  | [] => []
  | .error _ :: _ => []
  | .ok fileContent :: rest => fileContent :: readBeforeFailure rest

/-- The error of the first failing visit. -/
def firstFailure : List (Except GoError String) → Option GoError
  | [] => none
  | .error err :: _ => some err
  | .ok _ :: rest => firstFailure rest

mutual
/-- Every directory below can be listed and every file below can be read. -/
def Readable : Except GoError (List Entry) → Prop
  | .error _ => False
  | .ok files => ReadableLoop files
/-- Every entry of the list, and everything below it, can be listed or read. -/
def ReadableLoop : List Entry → Prop
  | [] => True
  | file :: rest => ReadableEntry file ∧ ReadableLoop rest
/-- The entry, and everything below it, can be listed or read. -/
def ReadableEntry : Entry → Prop
  | .dir _ listing => Readable listing
  | .file _ read => ∃ fileContent, read = .ok fileContent
end

mutual
/-- The contents of the files, at any depth, whose name ends with the suffix,
in depth-first listing order. -/
def codeFiles : Except GoError (List Entry) → List String
  | .error _ => []
  | .ok files => codeFilesLoop files
/-- The contents of the matching files below the entries of one directory. -/
def codeFilesLoop : List Entry → List String
  | [] => []
  | file :: rest => codeFilesEntry file ++ codeFilesLoop rest
/-- The contents of the matching files at and below one entry. -/
def codeFilesEntry : Entry → List String
  | .dir _ listing => codeFiles listing
  | .file name (.ok fileContent) => if HasSuffix name codeFileSuffix then [fileContent] else []
  | .file _ (.error _) => []
end

/-- Running the walk from `st` over a sequence of visits. -/
def runVisits (st : Tables) (vs : List (Except GoError String)) : Tables × Option GoError :=
  (processAll st (readBeforeFailure vs), firstFailure vs)

/-- One run of the inner loop, seen on the element at index `i` and on the
elements after it: the element left at index `i` and the elements after it. -/
def pass (counts : Table) : String → List String → String × List String
  | x, [] => (x, [])
  | x, y :: rest =>
    if getCount counts y > getCount counts x then
      ((pass counts y rest).1, x :: (pass counts y rest).2)
    else ((pass counts x rest).1, y :: (pass counts x rest).2)

/-- The first `n` runs of the outer loop, seen on the elements from its index on. -/
def passes (counts : Table) : Nat → List String → List String
  | 0, l => l
  | _ + 1, [] => []
  | n + 1, x :: rest => (pass counts x rest).1 :: passes counts n (pass counts x rest).2

/-- In the list, `a` occurs and `b` occurs after the first `a`. -/
def Before (l : List String) (a b : String) : Prop :=
  l.indexOf a < l.indexOf b ∧ l.indexOf b < l.length

instance (l : List String) (a b : String) : Decidable (Before l a b) := by
  unfold Before; infer_instance

/-- The list is in descending order of count. -/
def Descending (counts : Table) (l : List String) : Prop :=
  l.Pairwise (fun a b => getCount counts b ≤ getCount counts a)

/-- The file of the case-folding example. -/
def aliceFile : String :=
  "// TODO(alice): fix this\n// todo(alice): another one\n"

/-- A tree in which everything can be listed and read: two matching files, one
of them two directories down, and one file with another suffix. -/
def sampleTree : Except GoError (List Entry) :=
  .ok [.file "main.rs" (.ok "// TODO(alice): fix this\n"),
       .file "notes.txt" (.ok "// TODO(bob): not counted\n"),
       .dir "a" (.ok [.dir "b" (.ok [.file "file.rs" (.ok "// fixme(carol): later\n")])])]

/-- The table of the leaderboard example. -/
def exampleCounts : Table :=
  [("alice", 5), ("bob", 3), ("carol", 5), ("dave", 1)]

/-- A table in which two blamers tie below a third. -/
def tieCounts : Table :=
  [("a", 1), ("b", 1), ("c", 2)]

/-- No two keys of the table have the same count. -/
def DistinctCounts (counts : Table) : Prop :=
  ∀ a ∈ keys counts, ∀ b ∈ keys counts, getCount counts a = getCount counts b → a = b

instance (counts : Table) : Decidable (DistinctCounts counts) := by
  unfold DistinctCounts; infer_instance

/-- The unbounded table read as a table of 64-bit counts. -/
def toTable64 (t : Table) : Table64 :=
  t.map (fun p => (p.1, (p.2 : Int)))

/-- The unbounded tables read as tables of 64-bit counts. -/
def toTables64 (st : Tables) : Tables64 :=
  ⟨toTable64 st.todoCounts, toTable64 st.fixmeCounts⟩

/-- Every key of the table has a count of at least one. -/
def PositiveCounts64 (t : Table64) : Prop :=
  ∀ b ∈ keys64 t, 1 ≤ getCount64 t b

instance (t : Table64) : Decidable (PositiveCounts64 t) := by
  unfold PositiveCounts64; infer_instance

/-- Counting the given matches into the tables takes no count past the largest
64-bit value. -/
def NoOverflow (st : Tables64) (found : List Submatch) : Prop :=
  ∀ b : String,
    getCount64 st.todoCounts b + found.countP (fun m => isTodo m && m.blamer = b) ≤ maxInt64 ∧
    getCount64 st.fixmeCounts b + found.countP (fun m => isFixme m && m.blamer = b) ≤ maxInt64

/-- The table that holds one blamer at the largest 64-bit count. -/
def fullTables : Tables64 := ⟨[("a", maxInt64)], []⟩

/-! ## Auxiliary lemmas -/

theorem getCount_increment (t : Table) (b k : String) :
    getCount (increment t b) k = getCount t k + (if b = k then 1 else 0) := by
  induction t with
  | nil => simp [increment, getCount]
  | cons p rest ih =>
    obtain ⟨k1, v⟩ := p
    by_cases h1 : k1 = b
    · subst h1
      by_cases h2 : k1 = k
      · simp [increment, getCount, h2]
      · simp [increment, getCount, h2]
    · by_cases h2 : k1 = k
      · subst h2
        have h3 : ¬ b = k1 := fun h => h1 h.symm
        simp [increment, getCount, h1, h3]
      · simp [increment, getCount, h1, h2, ih]

theorem total_increment (t : Table) (b : String) :
    total (increment t b) = total t + 1 := by
  induction t with
  | nil => simp [increment, total]
  | cons p rest ih =>
    obtain ⟨k1, v⟩ := p
    by_cases h1 : k1 = b
    · simp [increment, total, h1]; omega
    · simp only [total] at ih
      simp [increment, total, h1, ih]; omega

theorem mem_keys_increment (t : Table) (b k : String) :
    k ∈ keys (increment t b) ↔ k = b ∨ k ∈ keys t := by
  induction t with
  | nil => simp [increment, keys]
  | cons p rest ih =>
    obtain ⟨k1, v⟩ := p
    by_cases h1 : k1 = b
    · subst h1
      simp [increment, keys]
    · simp only [keys] at ih
      simp [increment, keys, h1, ih]
      tauto

theorem countMatch_known (st : Tables) (m : Submatch) (hk : m.kind ∈ knownKinds) :
    countMatch st m =
      if isTodo m then ⟨increment st.todoCounts m.blamer, st.fixmeCounts⟩
      else ⟨st.todoCounts, increment st.fixmeCounts m.blamer⟩ := by
  simp only [knownKinds, List.mem_cons, List.mem_singleton, List.not_mem_nil, or_false] at hk
  have u1 : ToUpper "TODO" = "TODO" := by decide
  have u2 : ToUpper "FIXME" = "FIXME" := by decide
  have u3 : ToUpper "todo" = "TODO" := by decide
  have u4 : ToUpper "fixme" = "FIXME" := by decide
  rcases hk with h | h | h | h <;> simp [countMatch, isTodo, h, u1, u2, u3, u4]

theorem matchKind_known (cs : List Char) (k : String) (r : List Char)
    (h : matchKind cs = some (k, r)) : k ∈ knownKinds := by
  unfold matchKind at h
  split at h
  · cases h; simp [knownKinds]
  · split at h
    · cases h; simp [knownKinds]
    · split at h
      · cases h; simp [knownKinds]
      · split at h
        · cases h; simp [knownKinds]
        · cases h

theorem matchAt_known (cs : List Char) (m : Submatch) (r : List Char)
    (h : matchAt cs = some (m, r)) : m.kind ∈ knownKinds := by
  unfold matchAt at h
  split at h
  · cases h
  · split at h
    · cases h
    · rename_i kind afterKind hkind
      split at h
      · cases h
      · split at h
        · cases h
        · split at h
          · cases h
          · split at h
            · cases h
            · cases h
              exact matchKind_known _ _ _ hkind

theorem findAllFrom_known (cs : List Char) :
    ∀ skip : Nat, ∀ m ∈ findAllFrom skip cs, m.kind ∈ knownKinds := by
  induction cs with
  | nil => intro skip m hm; cases skip <;> simp [findAllFrom] at hm
  | cons c cs ih =>
    intro skip m hm
    cases skip with
    | succ n => exact ih n m (by simpa [findAllFrom] using hm)
    | zero =>
      simp only [findAllFrom] at hm
      split at hm
      · rename_i m1 rest hmatch
        rcases List.mem_cons.1 hm with h | h
        · subst h; exact matchAt_known _ _ _ hmatch
        · exact ih _ m h
      · exact ih 0 m hm

theorem FindAllStringSubmatch_known (fileContent : String) :
    ∀ m ∈ FindAllStringSubmatch fileContent, m.kind ∈ knownKinds :=
  findAllFrom_known _ 0

theorem processAll_append (st : Tables) (xs ys : List String) :
    processAll st (xs ++ ys) = processAll (processAll st xs) ys := by
  simp [processAll, List.foldl_append]

theorem runVisits_append (st : Tables) (xs ys : List (Except GoError String)) :
    runVisits st (xs ++ ys) =
      match runVisits st xs with
      | (st1, some err) => (st1, some err)
      | (st1, none) => runVisits st1 ys := by
  induction xs generalizing st with
  | nil => simp [runVisits, readBeforeFailure, firstFailure, processAll]
  | cons x xs ih =>
    cases x with
    | error e => simp [runVisits, readBeforeFailure, firstFailure, processAll]
    | ok c =>
      have := ih ((processFile (.ok c) st).1)
      simpa [runVisits, readBeforeFailure, firstFailure, processAll] using this

theorem runVisits_nil (st : Tables) : runVisits st [] = (st, none) := rfl

theorem runVisits_single (st : Tables) (read : Except GoError String) :
    runVisits st [read] = processFile read st := by
  cases read <;> rfl

mutual
theorem extractComments_eq_runVisits :
    ∀ (listing : Except GoError (List Entry)) (st : Tables),
      extractComments listing st = runVisits st (visits listing)
  | .error err, st => by
    simp [extractComments, visits, runVisits, readBeforeFailure, firstFailure, processAll]
  | .ok files, st => by
    simp only [extractComments, visits]
    exact extractLoop_eq_runVisits files st
theorem extractLoop_eq_runVisits :
    ∀ (files : List Entry) (st : Tables),
      extractLoop files st = runVisits st (visitsLoop files)
  | [], st => by
    simp [extractLoop, visitsLoop, runVisits_nil]
  | file :: rest, st => by
    simp only [extractLoop, visitsLoop, runVisits_append]
    rw [extractEntry_eq_runVisits file st]
    rcases runVisits st (visitsEntry file) with ⟨st1, _ | err⟩
    · exact extractLoop_eq_runVisits rest st1
    · rfl
theorem extractEntry_eq_runVisits :
    ∀ (file : Entry) (st : Tables),
      extractEntry file st = runVisits st (visitsEntry file)
  | .dir _ listing, st => by
    simp only [extractEntry, visitsEntry]
    exact extractComments_eq_runVisits listing st
  | .file name read, st => by
    by_cases hs : HasSuffix name codeFileSuffix
    · simp [extractEntry, visitsEntry, hs, runVisits_single]
    · simp [extractEntry, visitsEntry, hs, runVisits_nil]
end

mutual
theorem visits_of_readable :
    ∀ (listing : Except GoError (List Entry)), Readable listing →
      visits listing = (codeFiles listing).map Except.ok
  | .error err, h => by simp [Readable] at h
  | .ok files, h => by
    simp only [visits, codeFiles]
    exact visitsLoop_of_readable files (by simpa [Readable] using h)
theorem visitsLoop_of_readable :
    ∀ (files : List Entry), ReadableLoop files →
      visitsLoop files = (codeFilesLoop files).map Except.ok
  | [], _ => by simp [visitsLoop, codeFilesLoop]
  | file :: rest, h => by
    simp only [ReadableLoop] at h
    simp [visitsLoop, codeFilesLoop, visitsEntry_of_readable file h.1,
      visitsLoop_of_readable rest h.2]
theorem visitsEntry_of_readable :
    ∀ (file : Entry), ReadableEntry file →
      visitsEntry file = (codeFilesEntry file).map Except.ok
  | .dir _ listing, h => by
    simp only [visitsEntry, codeFilesEntry]
    exact visits_of_readable listing (by simpa [ReadableEntry] using h)
  | .file name (.ok c), _ => by
    by_cases hs : HasSuffix name codeFileSuffix <;> simp [visitsEntry, codeFilesEntry, hs]
  | .file name (.error e), h => by
    simp [ReadableEntry] at h
end

theorem readBeforeFailure_ok (cs : List String) :
    readBeforeFailure (cs.map Except.ok) = cs := by
  induction cs with
  | nil => rfl
  | cons c cs ih => simp [readBeforeFailure, ih]

theorem firstFailure_ok (cs : List String) :
    firstFailure (cs.map Except.ok) = none := by
  induction cs with
  | nil => rfl
  | cons c cs ih => simp [firstFailure, ih]

theorem runVisits_ok (st : Tables) (cs : List String) :
    runVisits st (cs.map Except.ok) = (processAll st cs, none) := by
  simp [runVisits, readBeforeFailure_ok, firstFailure_ok]

theorem firstFailure_isSome (vs : List (Except GoError String)) :
    (firstFailure vs).isSome ↔ ∃ err, Except.error err ∈ vs := by
  induction vs with
  | nil => simp [firstFailure]
  | cons v vs ih =>
    cases v with
    | error e => simp [firstFailure]
    | ok c => simp [firstFailure, ih]

theorem collectBlamers_eq (order : List String) : collectBlamers order = order := by
  have h : ∀ (acc l : List String),
      l.foldl (fun blamers blamer => blamers ++ [blamer]) acc = acc ++ l := by
    intro acc l
    induction l generalizing acc with
    | nil => simp
    | cons x l ih => simp [ih]
  simpa [collectBlamers] using h [] order

theorem getD_middle (a : List String) (x : String) (tl : List String) (d : String)
    (n : Nat) (hn : n = a.length) : (a ++ x :: tl).getD n d = x := by
  subst hn
  induction a with
  | nil => rfl
  | cons y a ih => simpa using ih

theorem set_middle (a : List String) (x y : String) (tl : List String)
    (n : Nat) (hn : n = a.length) : (a ++ x :: tl).set n y = a ++ y :: tl := by
  subst hn
  induction a with
  | nil => rfl
  | cons z a ih => simp

theorem innerLoop_eq_pass (counts : Table) (pre : List String) :
    ∀ (todo : List String) (x : String) (done : List String),
      innerLoop counts pre.length todo.length (pre.length + 1 + done.length)
          (pre ++ x :: (done ++ todo))
        = pre ++ (pass counts x todo).1 :: (done ++ (pass counts x todo).2) := by
  intro todo
  induction todo with
  | nil => intro x done; simp [innerLoop, pass]
  | cons y rest ih =>
    intro x done
    have hsplit : pre ++ x :: (done ++ y :: rest) = (pre ++ x :: done) ++ y :: rest := by
      simp
    have hj : (pre ++ x :: (done ++ y :: rest)).getD (pre.length + 1 + done.length) ""
        = y := by
      rw [hsplit]
      exact getD_middle _ _ _ _ _ (by simp; omega)
    have hi : (pre ++ x :: (done ++ y :: rest)).getD pre.length "" = x :=
      getD_middle pre x _ "" _ rfl
    have hlen : pre.length + 1 + done.length + 1 = pre.length + 1 + (done ++ [x]).length := by
      simp; omega
    have hlen2 : pre.length + 1 + done.length + 1 = pre.length + 1 + (done ++ [y]).length := by
      simp; omega
    simp only [innerLoop, List.length_cons, hj, hi]
    by_cases hc : getCount counts y > getCount counts x
    · have hswap : swap (pre ++ x :: (done ++ y :: rest)) pre.length
          (pre.length + 1 + done.length) = pre ++ y :: ((done ++ [x]) ++ rest) := by
        unfold swap
        rw [hj, hi, set_middle pre x y _ _ rfl]
        have h2 : pre ++ y :: (done ++ y :: rest) = (pre ++ y :: done) ++ y :: rest := by
          simp
        rw [h2, set_middle (pre ++ y :: done) y x rest _ (by simp; omega)]
        simp
      rw [if_pos hc, hswap, hlen, ih y (done ++ [x])]
      simp [pass, hc]
    · have hkeep : pre ++ x :: (done ++ y :: rest) = pre ++ x :: ((done ++ [y]) ++ rest) := by
        simp
      rw [if_neg hc, hkeep, hlen2, ih x (done ++ [y])]
      simp [pass, hc]

theorem pass_length (counts : Table) (rest : List String) :
    ∀ x : String, (pass counts x rest).2.length = rest.length := by
  induction rest with
  | nil => intro x; simp [pass]
  | cons y rest ih =>
    intro x
    by_cases hc : getCount counts y > getCount counts x <;> simp [pass, hc, ih]

theorem outerLoop_short (counts : Table) :
    ∀ (n i : Nat) (blamers : List String), blamers.length ≤ i + 1 →
      outerLoop counts n i blamers = blamers := by
  intro n
  induction n with
  | zero => intro i blamers _; rfl
  | succ n ih =>
    intro i blamers h
    have h0 : blamers.length - (i + 1) = 0 := by omega
    simp only [outerLoop, h0, innerLoop]
    exact ih (i + 1) blamers (by omega)

theorem outerLoop_eq_passes (counts : Table) :
    ∀ (n : Nat) (pre l : List String),
      outerLoop counts n pre.length (pre ++ l) = pre ++ passes counts n l := by
  intro n
  induction n with
  | zero => intro pre l; simp [outerLoop, passes]
  | succ n ih =>
    intro pre l
    cases l with
    | nil =>
      simp only [List.append_nil, passes]
      exact outerLoop_short counts (n + 1) pre.length pre (by omega)
    | cons x rest =>
      have hlen : (pre ++ x :: rest).length - (pre.length + 1) = rest.length := by
        simp; omega
      have hin := innerLoop_eq_pass counts pre rest x []
      simp only [List.length_nil, Nat.add_zero, List.nil_append] at hin
      simp only [outerLoop, hlen, hin, passes]
      have := ih (pre ++ [(pass counts x rest).1]) (pass counts x rest).2
      simpa using this

theorem sortBlamersByCount_eq_passes (counts : Table) (order : List String) :
    sortBlamersByCount counts order = passes counts (order.length - 1) order := by
  have := outerLoop_eq_passes counts (order.length - 1) [] order
  simpa [sortBlamersByCount, collectBlamers_eq] using this

theorem pass_perm (counts : Table) (rest : List String) :
    ∀ x : String, ((pass counts x rest).1 :: (pass counts x rest).2).Perm (x :: rest) := by
  induction rest with
  | nil => intro x; simp [pass]
  | cons y rest ih =>
    intro x
    by_cases hc : getCount counts y > getCount counts x
    · simp only [pass, hc, if_true]
      exact (List.Perm.swap _ _ _).trans ((ih y).cons x)
    · simp only [pass, hc, if_false]
      exact ((List.Perm.swap _ _ _).trans ((ih x).cons y)).trans (List.Perm.swap _ _ _)

theorem pass_head_ge (counts : Table) (rest : List String) :
    ∀ x : String, getCount counts x ≤ getCount counts (pass counts x rest).1 := by
  induction rest with
  | nil => intro x; simp [pass]
  | cons y rest ih =>
    intro x
    by_cases hc : getCount counts y > getCount counts x
    · simp only [pass, hc, if_true]
      exact Nat.le_trans (Nat.le_of_lt hc) (ih y)
    · simp only [pass, hc, if_false]
      exact ih x

theorem pass_tail_le (counts : Table) (rest : List String) :
    ∀ x : String, ∀ z ∈ (pass counts x rest).2,
      getCount counts z ≤ getCount counts (pass counts x rest).1 := by
  induction rest with
  | nil => intro x z hz; simp [pass] at hz
  | cons y rest ih =>
    intro x z hz
    by_cases hc : getCount counts y > getCount counts x
    · simp only [pass, hc, if_true] at hz ⊢
      rcases List.mem_cons.1 hz with h | h
      · subst h; exact Nat.le_trans (Nat.le_of_lt hc) (pass_head_ge counts rest y)
      · exact ih y z h
    · simp only [pass, hc, if_false] at hz ⊢
      rcases List.mem_cons.1 hz with h | h
      · subst h; exact Nat.le_trans (Nat.le_of_not_gt hc) (pass_head_ge counts rest x)
      · exact ih x z h

theorem pass_of_max (counts : Table) (rest : List String) :
    ∀ x : String, (∀ y ∈ rest, getCount counts y ≤ getCount counts x) →
      pass counts x rest = (x, rest) := by
  induction rest with
  | nil => intro x _; rfl
  | cons y rest ih =>
    intro x h
    have hy : ¬ getCount counts y > getCount counts x :=
      Nat.not_lt.2 (h y (List.mem_cons_self _ _))
    have hrest := ih x (fun z hz => h z (List.mem_cons_of_mem _ hz))
    simp [pass, hy, hrest]

theorem passes_perm (counts : Table) :
    ∀ (n : Nat) (l : List String), (passes counts n l).Perm l := by
  intro n
  induction n with
  | zero => intro l; simp [passes]
  | succ n ih =>
    intro l
    cases l with
    | nil => simp [passes]
    | cons x rest =>
      simp only [passes]
      exact ((ih _).cons _).trans (pass_perm counts rest x)

theorem passes_descending (counts : Table) :
    ∀ (n : Nat) (l : List String), l.length ≤ n + 1 → Descending counts (passes counts n l) := by
  intro n
  induction n with
  | zero =>
    intro l h
    match l, h with
    | [], _ => simp [passes, Descending]
    | [x], _ => simp [passes, Descending]
  | succ n ih =>
    intro l h
    cases l with
    | nil => simp [passes, Descending]
    | cons x rest =>
      simp only [passes, Descending, List.pairwise_cons]
      refine ⟨fun z hz => ?_, ?_⟩
      · exact pass_tail_le counts rest x z ((passes_perm counts n _).subset hz)
      · apply ih
        rw [pass_length]
        simpa using h

theorem passes_of_descending (counts : Table) :
    ∀ (n : Nat) (l : List String), Descending counts l → passes counts n l = l := by
  intro n
  induction n with
  | zero => intro l _; rfl
  | succ n ih =>
    intro l h
    cases l with
    | nil => rfl
    | cons x rest =>
      simp only [Descending, List.pairwise_cons] at h
      simp only [passes, pass_of_max counts rest x h.1]
      rw [ih rest h.2]

theorem sort_perm (counts : Table) (order : List String) :
    (sortBlamersByCount counts order).Perm order := by
  rw [sortBlamersByCount_eq_passes]; exact passes_perm counts _ _

theorem sort_descending (counts : Table) (order : List String) :
    Descending counts (sortBlamersByCount counts order) := by
  rw [sortBlamersByCount_eq_passes]; exact passes_descending counts _ _ (by omega)

theorem sort_of_descending (counts : Table) (order : List String)
    (h : Descending counts order) : sortBlamersByCount counts order = order := by
  rw [sortBlamersByCount_eq_passes]; exact passes_of_descending counts _ _ h

theorem topBlamerLoop_eq (topN : Nat) (sortedBlamers : List String) :
    ∀ (fuel i : Nat), sortedBlamers.length < fuel + i →
      topBlamerLoop topN sortedBlamers fuel i =
        (List.range (min topN sortedBlamers.length - i)).map
          (fun k => rankLine (i + k) (sortedBlamers.getD (i + k) "")) := by
  intro fuel
  induction fuel with
  | zero =>
    intro i h
    have : min topN sortedBlamers.length - i = 0 := by omega
    simp [topBlamerLoop, this]
  | succ fuel ih =>
    intro i h
    by_cases hc : i < topN ∧ i < sortedBlamers.length
    · have hm : min topN sortedBlamers.length - i
          = (min topN sortedBlamers.length - (i + 1)) + 1 := by omega
      simp only [topBlamerLoop, hc, and_self, if_true]
      rw [ih (i + 1) (by omega), hm, List.range_succ_eq_map]
      simp [rankLine, Function.comp_def, Nat.add_assoc, Nat.add_comm 1]
    · have : min topN sortedBlamers.length - i = 0 := by omega
      simp [topBlamerLoop, hc, this]

theorem writeTopBlamer_eq (topN : Nat) (counts : Table) (order : List String) :
    writeTopBlamer topN counts order =
      (List.range (min topN order.length)).map
        (fun k => rankLine k ((sortBlamersByCount counts order).getD k "")) := by
  have hlen : (sortBlamersByCount counts order).length = order.length :=
    (sort_perm counts order).length_eq
  have := topBlamerLoop_eq topN (sortBlamersByCount counts order)
    ((sortBlamersByCount counts order).length + 1) 0 (by omega)
  simpa [writeTopBlamer, hlen] using this

theorem countMatches_cons (st : Tables) (m : Submatch) (found : List Submatch) :
    countMatches st (m :: found) = countMatches (countMatch st m) found := rfl

theorem countMatches_getCount (found : List Submatch) :
    ∀ (st : Tables), (∀ m ∈ found, m.kind ∈ knownKinds) → ∀ b : String,
      getCount (countMatches st found).todoCounts b
          = getCount st.todoCounts b + found.countP (fun m => isTodo m && m.blamer = b) ∧
      getCount (countMatches st found).fixmeCounts b
          = getCount st.fixmeCounts b + found.countP (fun m => isFixme m && m.blamer = b) := by
  induction found with
  | nil => intro st _ b; simp [countMatches]
  | cons m found ih =>
    intro st hk b
    have hm : m.kind ∈ knownKinds := hk m (List.mem_cons_self _ _)
    have ih1 := ih (countMatch st m) (fun x hx => hk x (List.mem_cons_of_mem _ hx)) b
    rw [countMatches_cons, ih1.1, ih1.2, countMatch_known st m hm]
    simp only [knownKinds, List.mem_cons, List.mem_singleton, List.not_mem_nil, or_false] at hm
    by_cases hb : m.blamer = b <;>
      rcases hm with h | h | h | h <;>
      simp [isTodo, isFixme, h, hb, getCount_increment, List.countP_cons] <;> omega

theorem countMatches_total (found : List Submatch) :
    ∀ (st : Tables), (∀ m ∈ found, m.kind ∈ knownKinds) →
      total (countMatches st found).todoCounts = total st.todoCounts + found.countP isTodo ∧
      total (countMatches st found).fixmeCounts = total st.fixmeCounts + found.countP isFixme := by
  induction found with
  | nil => intro st _; simp [countMatches]
  | cons m found ih =>
    intro st hk
    have hm : m.kind ∈ knownKinds := hk m (List.mem_cons_self _ _)
    have ih1 := ih (countMatch st m) (fun x hx => hk x (List.mem_cons_of_mem _ hx))
    rw [countMatches_cons, ih1.1, ih1.2, countMatch_known st m hm]
    simp only [knownKinds, List.mem_cons, List.mem_singleton, List.not_mem_nil, or_false] at hm
    rcases hm with h | h | h | h <;>
      simp [isTodo, isFixme, h, total_increment, List.countP_cons] <;> omega

theorem processAll_total (contents : List String) :
    ∀ st : Tables,
      total (processAll st contents).todoCounts = total st.todoCounts +
          (contents.map (fun c => (FindAllStringSubmatch c).countP isTodo)).sum ∧
      total (processAll st contents).fixmeCounts = total st.fixmeCounts +
          (contents.map (fun c => (FindAllStringSubmatch c).countP isFixme)).sum := by
  induction contents with
  | nil => intro st; simp [processAll]
  | cons c contents ih =>
    intro st
    have h1 := ih (processFile (.ok c) st).1
    have h2 := countMatches_total (FindAllStringSubmatch c) st (FindAllStringSubmatch_known c)
    simp only [processAll, List.foldl_cons] at h1 ⊢
    simp only [processFile] at h1 h2 ⊢
    rw [h1.1, h1.2, h2.1, h2.2]
    simp [Nat.add_assoc]

theorem enumerates_perm_dedup (order : List String) (counts : Table)
    (h : Enumerates order counts) : order.Perm (keys counts).dedup :=
  (List.perm_ext_iff_of_nodup h.1 (List.nodup_dedup _)).2
    (fun b => by rw [h.2 b, List.mem_dedup])

theorem enumerates_length (order : List String) (counts : Table)
    (h : Enumerates order counts) : order.length = (keys counts).dedup.length :=
  (enumerates_perm_dedup order counts h).length_eq

theorem enumerates_perm (o1 o2 : List String) (counts : Table)
    (h1 : Enumerates o1 counts) (h2 : Enumerates o2 counts) : o1.Perm o2 :=
  (List.perm_ext_iff_of_nodup h1.1 h2.1).2 (fun b => by rw [h1.2 b, h2.2 b])

theorem top_ge_rest (counts : Table) (l : List String) (h : Descending counts l) (n : Nat) :
    ∀ b ∈ l.take n, ∀ c ∈ l.drop n, getCount counts c ≤ getCount counts b := by
  have h2 : Descending counts (l.take n ++ l.drop n) := by rwa [List.take_append_drop]
  exact (List.pairwise_append.1 h2).2.2

theorem example_leaderboard :
    ∀ order ∈ List.permutations' ["alice", "bob", "carol", "dave"],
      writeTopBlamer 3 exampleCounts order = ["1. alice\n", "2. carol\n", "3. bob\n"] ∨
      writeTopBlamer 3 exampleCounts order = ["1. carol\n", "2. alice\n", "3. bob\n"] := by
  decide

theorem sort_unique_of_distinct (counts : Table) (o1 o2 : List String)
    (h1 : Enumerates o1 counts) (h2 : Enumerates o2 counts) (hd : DistinctCounts counts) :
    sortBlamersByCount counts o1 = sortBlamersByCount counts o2 := by
  have strict : ∀ o : List String, Enumerates o counts →
      (sortBlamersByCount counts o).Pairwise
        (fun a b => getCount counts b < getCount counts a) := by
    intro o ho
    have hp := sort_perm counts o
    have hn : (sortBlamersByCount counts o).Nodup := hp.nodup_iff.2 ho.1
    have hboth := (sort_descending counts o).and hn
    refine hboth.imp_of_mem ?_
    intro a b ha hb hab
    have hka : a ∈ keys counts := (ho.2 a).1 (hp.subset ha)
    have hkb : b ∈ keys counts := (ho.2 b).1 (hp.subset hb)
    rcases Nat.lt_or_ge (getCount counts b) (getCount counts a) with h | h
    · exact h
    · exact absurd (hd a hka b hkb (Nat.le_antisymm h hab.1)) hab.2
  have hperm : (sortBlamersByCount counts o1).Perm (sortBlamersByCount counts o2) :=
    ((sort_perm counts o1).trans (enumerates_perm o1 o2 counts h1 h2)).trans
      (sort_perm counts o2).symm
  haveI : IsAntisymm String (fun a b => getCount counts b < getCount counts a) :=
    ⟨fun a b hab hba => absurd hab (Nat.lt_asymm hba)⟩
  exact List.eq_of_perm_of_sorted hperm (strict o1 h1) (strict o2 h2)

theorem before_split (l : List String) (a b : String) (h : Before l a b) :
    ∃ pre : List String, l = pre ++ a :: l.drop (l.indexOf a + 1) ∧
      b ∈ l.drop (l.indexOf a + 1) := by
  obtain ⟨h1, h2⟩ := h
  have ha : l.indexOf a < l.length := Nat.lt_trans h1 h2
  refine ⟨l.take (l.indexOf a), ?_, ?_⟩
  · have h3 : l[l.indexOf a] = a := List.getElem_indexOf ha
    conv_lhs => rw [← List.take_append_drop (l.indexOf a) l]
    rw [List.drop_eq_getElem_cons ha, h3]
  · have h4 : l[l.indexOf b] = b := List.getElem_indexOf h2
    rw [List.mem_iff_getElem]
    refine ⟨l.indexOf b - (l.indexOf a + 1), ?_, ?_⟩
    · simp only [List.length_drop]; omega
    · simp only [List.getElem_drop]
      have e : l.indexOf a + 1 + (l.indexOf b - (l.indexOf a + 1)) = l.indexOf b := by omega
      simp only [e, h4]

theorem split_before (pre tail : List String) (a b : String)
    (hn : (pre ++ a :: tail).Nodup) (hb : b ∈ tail) : Before (pre ++ a :: tail) a b := by
  have hn2 := List.nodup_append.1 hn
  have hapre : a ∉ pre := fun h => hn2.2.2 h (List.mem_cons_self _ _)
  have hbpre : b ∉ pre := fun h => hn2.2.2 h (List.mem_cons_of_mem _ hb)
  have hba : a ≠ b := fun h => (List.nodup_cons.1 hn2.2.1).1 (h ▸ hb)
  have hbl : List.indexOf b tail < tail.length := List.indexOf_lt_length.2 hb
  have e1 : List.indexOf a (pre ++ a :: tail) = pre.length := by
    rw [List.indexOf_append_of_not_mem hapre, List.indexOf_cons_self]; rfl
  have e2 : List.indexOf b (pre ++ a :: tail) = pre.length + (List.indexOf b tail + 1) := by
    rw [List.indexOf_append_of_not_mem hbpre, List.indexOf_cons_ne _ hba]
  unfold Before
  rw [e1, e2]
  simp only [List.length_append, List.length_cons]
  omega

theorem pass_cons_gt (counts : Table) (x y : String) (rest : List String)
    (h : getCount counts y > getCount counts x) :
    pass counts x (y :: rest) = ((pass counts y rest).1, x :: (pass counts y rest).2) := by
  simp [pass, h]

theorem pass_cons_le (counts : Table) (x y : String) (rest : List String)
    (h : ¬ getCount counts y > getCount counts x) :
    pass counts x (y :: rest) = ((pass counts x rest).1, y :: (pass counts x rest).2) := by
  simp [pass, h]

theorem passes_succ_cons (counts : Table) (n : Nat) (x : String) (rest : List String) :
    passes counts (n + 1) (x :: rest)
      = (pass counts x rest).1 :: passes counts n (pass counts x rest).2 := rfl

theorem pass_keeps (counts : Table) (a : String) (tail : List String)
    (hmax : ∀ z ∈ tail, getCount counts z ≤ getCount counts a) :
    ∀ (pre : List String) (x : String),
      ((pass counts x (pre ++ a :: tail)).1 = a ∧
        ∃ pre1 : List String, (pass counts x (pre ++ a :: tail)).2 = pre1 ++ tail) ∨
      (∃ pre1 : List String, (pass counts x (pre ++ a :: tail)).2 = pre1 ++ a :: tail) := by
  intro pre
  induction pre with
  | nil =>
    intro x
    by_cases hc : getCount counts a > getCount counts x
    · left
      rw [List.nil_append, pass_cons_gt counts x a tail hc, pass_of_max counts tail a hmax]
      exact ⟨rfl, [x], rfl⟩
    · right
      have hx : ∀ z ∈ tail, getCount counts z ≤ getCount counts x :=
        fun z hz => Nat.le_trans (hmax z hz) (Nat.le_of_not_gt hc)
      rw [List.nil_append, pass_cons_le counts x a tail hc, pass_of_max counts tail x hx]
      exact ⟨[], rfl⟩
  | cons p pre ih =>
    intro x
    by_cases hc : getCount counts p > getCount counts x
    · rw [List.cons_append, pass_cons_gt counts x p _ hc]
      rcases ih p with ⟨h1, pre1, h2⟩ | ⟨pre1, h2⟩
      · exact Or.inl ⟨h1, x :: pre1, by rw [h2]; rfl⟩
      · exact Or.inr ⟨x :: pre1, by rw [h2]; rfl⟩
    · rw [List.cons_append, pass_cons_le counts x p _ hc]
      rcases ih x with ⟨h1, pre1, h2⟩ | ⟨pre1, h2⟩
      · exact Or.inl ⟨h1, p :: pre1, by rw [h2]; rfl⟩
      · exact Or.inr ⟨p :: pre1, by rw [h2]; rfl⟩

theorem passes_keeps (counts : Table) (a : String) (tail : List String)
    (hmax : ∀ z ∈ tail, getCount counts z ≤ getCount counts a) :
    ∀ (n : Nat) (pre : List String),
      ∃ pre1 tail1 : List String,
        passes counts n (pre ++ a :: tail) = pre1 ++ a :: tail1 ∧ ∀ z ∈ tail, z ∈ tail1 := by
  intro n
  induction n with
  | zero => intro pre; exact ⟨pre, tail, rfl, fun _ h => h⟩
  | succ n ih =>
    intro pre
    cases pre with
    | nil =>
      refine ⟨[], passes counts n tail, ?_, ?_⟩
      · rw [List.nil_append, passes_succ_cons, pass_of_max counts tail a hmax]
        rfl
      · intro z hz; exact (passes_perm counts n tail).symm.subset hz
    | cons x pre =>
      rw [List.cons_append, passes_succ_cons]
      rcases pass_keeps counts a tail hmax pre x with ⟨h1, pre1, h2⟩ | ⟨pre1, h2⟩
      · refine ⟨[], passes counts n (pass counts x (pre ++ a :: tail)).2, ?_, ?_⟩
        · rw [h1]; rfl
        · intro z hz
          apply (passes_perm counts n _).symm.subset
          rw [h2]
          exact List.mem_append_right _ hz
      · rw [h2]
        obtain ⟨pre2, tail2, e, hsub⟩ := ih pre1
        exact ⟨(pass counts x (pre ++ a :: tail)).1 :: pre2, tail2, by rw [e]; rfl, hsub⟩

theorem sort_keeps_before (counts : Table) (order : List String) (hn : order.Nodup)
    (a b : String) (hbefore : Before order a b)
    (hmax : ∀ z ∈ order.drop (order.indexOf a + 1), getCount counts z ≤ getCount counts a) :
    Before (sortBlamersByCount counts order) a b := by
  obtain ⟨pre, hsplit, hb⟩ := before_split order a b hbefore
  have hnod : (sortBlamersByCount counts order).Nodup :=
    (sort_perm counts order).nodup_iff.2 hn
  rw [sortBlamersByCount_eq_passes] at hnod ⊢
  obtain ⟨pre1, tail1, e, hsub⟩ :=
    passes_keeps counts a _ hmax (order.length - 1) pre
  rw [← hsplit] at e
  rw [e] at hnod ⊢
  exact split_before pre1 tail1 a b hnod (hsub b hb)

theorem wrapInt64_of_small (x : Int) (h1 : 0 ≤ x) (h2 : x ≤ maxInt64) : wrapInt64 x = x := by
  unfold wrapInt64 maxInt64 at *
  omega

theorem getCount64_nonneg (t : Table64) (b : String) (h : PositiveCounts64 t) :
    0 ≤ getCount64 t b := by
  by_cases hb : b ∈ keys64 t
  · have := h b hb; omega
  · have h0 : ∀ t : Table64, b ∉ keys64 t → getCount64 t b = 0 := by
      intro t
      induction t with
      | nil => intro _; rfl
      | cons p rest ih =>
        obtain ⟨k, v⟩ := p
        intro hk
        have hne : ¬ k = b := fun e => hk (by simp [keys64, e])
        have hrest : b ∉ keys64 rest := fun e => hk (by simp [keys64] at e ⊢; exact Or.inr e)
        simp [getCount64, hne, ih hrest]
    rw [h0 t hb]

theorem getCount64_increment64 (t : Table64) (b k : String) :
    getCount64 (increment64 t b) k
      = if b = k then wrapInt64 (getCount64 t k + 1) else getCount64 t k := by
  induction t with
  | nil =>
    by_cases h : b = k
    · simp [increment64, getCount64, h]; decide
    · simp [increment64, getCount64, h]
  | cons p rest ih =>
    obtain ⟨k1, v⟩ := p
    by_cases h1 : k1 = b
    · subst h1
      by_cases h2 : k1 = k
      · simp [increment64, getCount64, h2]
      · simp [increment64, getCount64, h2]
    · by_cases h2 : k1 = k
      · subst h2
        have h3 : ¬ b = k1 := fun h => h1 h.symm
        simp [increment64, getCount64, h1, h3]
      · simp [increment64, getCount64, h1, h2, ih]

theorem mem_keys64_increment64 (t : Table64) (b k : String) :
    k ∈ keys64 (increment64 t b) ↔ k = b ∨ k ∈ keys64 t := by
  induction t with
  | nil => simp [increment64, keys64]
  | cons p rest ih =>
    obtain ⟨k1, v⟩ := p
    by_cases h1 : k1 = b
    · subst h1
      simp [increment64, keys64]
    · simp only [keys64] at ih
      simp [increment64, keys64, h1, ih]
      tauto

theorem increment64_small (t : Table64) (b : String) (hp : PositiveCounts64 t)
    (hb : getCount64 t b < maxInt64) :
    PositiveCounts64 (increment64 t b) ∧
    ∀ k : String, getCount64 (increment64 t b) k
      = getCount64 t k + (if b = k then 1 else 0) := by
  have h0 := getCount64_nonneg t b hp
  have hw : wrapInt64 (getCount64 t b + 1) = getCount64 t b + 1 :=
    wrapInt64_of_small _ (by omega) (by omega)
  have hget : ∀ k : String, getCount64 (increment64 t b) k
      = getCount64 t k + (if b = k then 1 else 0) := by
    intro k
    rw [getCount64_increment64]
    by_cases h : b = k
    · subst h; simp [hw]
    · simp [h]
  refine ⟨?_, hget⟩
  intro k hk
  rw [hget k]
  rcases (mem_keys64_increment64 t b k).1 hk with h | h
  · subst h
    have := getCount64_nonneg t k hp
    simp; omega
  · have := hp k h
    split_ifs <;> omega

theorem countMatch64_known (st : Tables64) (m : Submatch) (hk : m.kind ∈ knownKinds) :
    countMatch64 st m =
      if isTodo m then ⟨increment64 st.todoCounts m.blamer, st.fixmeCounts⟩
      else ⟨st.todoCounts, increment64 st.fixmeCounts m.blamer⟩ := by
  simp only [knownKinds, List.mem_cons, List.mem_singleton, List.not_mem_nil, or_false] at hk
  have u1 : ToUpper "TODO" = "TODO" := by decide
  have u2 : ToUpper "FIXME" = "FIXME" := by decide
  have u3 : ToUpper "todo" = "TODO" := by decide
  have u4 : ToUpper "fixme" = "FIXME" := by decide
  rcases hk with h | h | h | h <;> simp [countMatch64, isTodo, h, u1, u2, u3, u4]

theorem known_todo_or_fixme (m : Submatch) (hk : m.kind ∈ knownKinds) :
    (isTodo m = true ∧ isFixme m = false) ∨ (isTodo m = false ∧ isFixme m = true) := by
  simp only [knownKinds, List.mem_cons, List.mem_singleton, List.not_mem_nil, or_false] at hk
  rcases hk with h | h | h | h <;> simp [isTodo, isFixme, h]

theorem countMatches64_positive (found : List Submatch) :
    ∀ st : Tables64, (∀ m ∈ found, m.kind ∈ knownKinds) →
      PositiveCounts64 st.todoCounts → PositiveCounts64 st.fixmeCounts →
      NoOverflow st found →
      PositiveCounts64 (countMatches64 st found).todoCounts ∧
      PositiveCounts64 (countMatches64 st found).fixmeCounts := by
  induction found with
  | nil => intro st _ h1 h2 _; exact ⟨h1, h2⟩
  | cons m found ih =>
    intro st hk h1 h2 hno
    have hm : m.kind ∈ knownKinds := hk m (List.mem_cons_self _ _)
    have hk2 : ∀ x ∈ found, x.kind ∈ knownKinds := fun x hx => hk x (List.mem_cons_of_mem _ hx)
    show PositiveCounts64 (countMatches64 (countMatch64 st m) found).todoCounts ∧
      PositiveCounts64 (countMatches64 (countMatch64 st m) found).fixmeCounts
    rw [countMatch64_known st m hm]
    have hnob := hno m.blamer
    rcases known_todo_or_fixme m hm with ⟨ht, hf⟩ | ⟨ht, hf⟩
    · have hlt : getCount64 st.todoCounts m.blamer < maxInt64 := by
        have := hnob.1
        simp only [List.countP_cons, ht, Bool.true_and, decide_True, if_true] at this
        push_cast at this
        omega
      obtain ⟨hpos, hget⟩ := increment64_small st.todoCounts m.blamer h1 hlt
      rw [if_pos ht]
      refine ih ⟨increment64 st.todoCounts m.blamer, st.fixmeCounts⟩ hk2 hpos h2 ?_
      intro b
      have hb := hno b
      simp only [List.countP_cons, ht, hf, Bool.true_and, Bool.false_and] at hb
      refine ⟨?_, ?_⟩
      · show getCount64 (increment64 st.todoCounts m.blamer) b + _ ≤ maxInt64
        rw [hget b]
        have := hb.1
        by_cases e : m.blamer = b
        · simp only [e, decide_True, if_true] at this ⊢
          push_cast at this
          omega
        · simp only [e, decide_False, if_false] at this ⊢
          push_cast at this
          omega
      · have := hb.2
        simpa using this
    · have hlt : getCount64 st.fixmeCounts m.blamer < maxInt64 := by
        have := hnob.2
        simp only [List.countP_cons, hf, Bool.true_and, decide_True, if_true] at this
        push_cast at this
        omega
      obtain ⟨hpos, hget⟩ := increment64_small st.fixmeCounts m.blamer h2 hlt
      rw [if_neg (by simp [ht])]
      refine ih ⟨st.todoCounts, increment64 st.fixmeCounts m.blamer⟩ hk2 h1 hpos ?_
      intro b
      have hb := hno b
      simp only [List.countP_cons, ht, hf, Bool.true_and, Bool.false_and] at hb
      refine ⟨?_, ?_⟩
      · have := hb.1
        simpa using this
      · show getCount64 (increment64 st.fixmeCounts m.blamer) b + _ ≤ maxInt64
        rw [hget b]
        have := hb.2
        by_cases e : m.blamer = b
        · simp only [e, decide_True, if_true] at this ⊢
          push_cast at this
          omega
        · simp only [e, decide_False, if_false] at this ⊢
          push_cast at this
          omega

theorem getCount64_toTable64 (t : Table) (b : String) :
    getCount64 (toTable64 t) b = (getCount t b : Int) := by
  induction t with
  | nil => rfl
  | cons p rest ih =>
    obtain ⟨k, v⟩ := p
    by_cases h : k = b
    · simp [toTable64, getCount64, getCount, h]
    · simp only [toTable64] at ih
      simp [toTable64, getCount64, getCount, h, ih]

theorem increment64_toTable64 (t : Table) (b : String)
    (h : (getCount t b : Int) < maxInt64) :
    increment64 (toTable64 t) b = toTable64 (increment t b) := by
  induction t with
  | nil => simp [toTable64, increment64, increment]
  | cons p rest ih =>
    obtain ⟨k, v⟩ := p
    by_cases hk : k = b
    · have hv : ((v : Nat) : Int) < maxInt64 := by simpa [getCount, hk] using h
      have hw : wrapInt64 ((v : Int) + 1) = (v : Int) + 1 :=
        wrapInt64_of_small _ (by omega) (by omega)
      simp [toTable64, increment64, increment, hk, hw]
    · have hrest : (getCount rest b : Int) < maxInt64 := by simpa [getCount, hk] using h
      simp only [toTable64] at ih
      simp [toTable64, increment64, increment, hk, ih hrest]

theorem countMatches64_toTables64 (found : List Submatch) :
    ∀ st : Tables, (∀ m ∈ found, m.kind ∈ knownKinds) →
      NoOverflow (toTables64 st) found →
      countMatches64 (toTables64 st) found = toTables64 (countMatches st found) := by
  induction found with
  | nil => intro st _ _; rfl
  | cons m found ih =>
    intro st hk hno
    have hm : m.kind ∈ knownKinds := hk m (List.mem_cons_self _ _)
    have hk2 : ∀ x ∈ found, x.kind ∈ knownKinds := fun x hx => hk x (List.mem_cons_of_mem _ hx)
    have hnob := hno m.blamer
    have hstep : countMatch64 (toTables64 st) m = toTables64 (countMatch st m) := by
      rw [countMatch64_known _ m hm, countMatch_known st m hm]
      rcases known_todo_or_fixme m hm with ⟨ht, hf⟩ | ⟨ht, hf⟩
      · have hlt : (getCount st.todoCounts m.blamer : Int) < maxInt64 := by
          have := hnob.1
          simp only [toTables64, getCount64_toTable64, List.countP_cons, ht, Bool.true_and,
            decide_True, if_true] at this
          push_cast at this
          omega
        simp [ht, toTables64, increment64_toTable64 _ _ hlt]
      · have hlt : (getCount st.fixmeCounts m.blamer : Int) < maxInt64 := by
          have := hnob.2
          simp only [toTables64, getCount64_toTable64, List.countP_cons, hf, Bool.true_and,
            decide_True, if_true] at this
          push_cast at this
          omega
        simp [ht, toTables64, increment64_toTable64 _ _ hlt]
    show countMatches64 (countMatch64 (toTables64 st) m) found
      = toTables64 (countMatches (countMatch st m) found)
    rw [hstep]
    apply ih (countMatch st m) hk2
    intro b
    have hb := hno b
    have hc := countMatches_getCount [m] st (fun x hx => by
      rw [List.mem_singleton.1 hx]; exact hm) b
    simp only [countMatches, List.foldl_cons, List.foldl_nil] at hc
    simp only [toTables64, getCount64_toTable64, List.countP_cons] at hb ⊢
    rw [hc.1, hc.2]
    simp only [List.countP_cons, List.countP_nil, Nat.zero_add]
    push_cast at hb ⊢
    constructor
    · have := hb.1; omega
    · have := hb.2; omega

/-! ## The properties -/

/-- C1: whatever the table and the order in which its blamers are enumerated,
the result of `sortBlamersByCount` is a rearrangement of the enumerated blamers
in descending count order: for every two positions `i < j` of the result, the
count at `i` is at least the count at `j`. -/
theorem sortBlamersByCount_descending (counts : Table) (order : List String)
    (i j : Nat) (hij : i < j) (hj : j < (sortBlamersByCount counts order).length) :
    (sortBlamersByCount counts order).Perm order ∧
    getCount counts ((sortBlamersByCount counts order).getD j "")
      ≤ getCount counts ((sortBlamersByCount counts order).getD i "") := by
  have h := List.pairwise_iff_getElem.1 (sort_descending counts order) i j
    (Nat.lt_trans hij hj) hj hij
  rw [List.getD_eq_getElem _ _ hj, List.getD_eq_getElem _ _ (Nat.lt_trans hij hj)]
  exact ⟨sort_perm counts order, h⟩

/-- Witness for C1: positions 0 and 2 of the sorted example table. -/
theorem sortBlamersByCount_descending_witness :
    (sortBlamersByCount exampleCounts ["dave", "bob", "carol", "alice"]).Perm
      ["dave", "bob", "carol", "alice"] ∧
    getCount exampleCounts
        ((sortBlamersByCount exampleCounts ["dave", "bob", "carol", "alice"]).getD 2 "")
      ≤ getCount exampleCounts
        ((sortBlamersByCount exampleCounts ["dave", "bob", "carol", "alice"]).getD 0 "") :=
  sortBlamersByCount_descending exampleCounts ["dave", "bob", "carol", "alice"] 0 2
    (by decide) (by decide)

/-- C2: for a table with at least `N` distinct blamers, the leaderboard written
by `writeTopBlamer` consists of the rank lines of `N` pairwise distinct blamers
of the table (the first `N` of the sorted slice), and every listed blamer has a
count at least as large as every blamer of the table that is not listed; for
the counts alice 5, bob 3, carol 5, dave 1 and `N = 3`, under every enumeration
order, the leaderboard has exactly three entries: alice and carol in some
order, then bob. -/
theorem leaderboard_lists_top_blamers (counts : Table) (order : List String) (N : Nat)
    (henum : Enumerates order counts) (hN : N ≤ (keys counts).dedup.length) :
    (∃ listed : List String,
      listed = (sortBlamersByCount counts order).take N ∧
      writeTopBlamer N counts order
        = (List.range N).map (fun i => rankLine i (listed.getD i "")) ∧
      listed.length = N ∧ listed.Nodup ∧ (∀ b ∈ listed, b ∈ keys counts) ∧
      (∀ b ∈ listed, ∀ c ∈ keys counts, c ∉ listed →
        getCount counts c ≤ getCount counts b)) ∧
    (∀ order4 : List String, Enumerates order4 exampleCounts →
      writeTopBlamer 3 exampleCounts order4 = ["1. alice\n", "2. carol\n", "3. bob\n"] ∨
      writeTopBlamer 3 exampleCounts order4 = ["1. carol\n", "2. alice\n", "3. bob\n"]) := by
  have hperm := sort_perm counts order
  have hlen : (sortBlamersByCount counts order).length = order.length := hperm.length_eq
  have hN2 : N ≤ order.length := by rw [enumerates_length order counts henum]; exact hN
  refine ⟨⟨_, rfl, ?_, ?_, ?_, ?_, ?_⟩, ?_⟩
  · rw [writeTopBlamer_eq, Nat.min_eq_left hN2]
    apply List.map_congr_left
    intro i hi
    have hi2 : i < N := List.mem_range.1 hi
    simp only [List.getD_eq_getElem?_getD, List.getElem?_take_of_lt hi2]
  · simp [List.length_take, hlen, hN2]
  · exact (hperm.nodup_iff.2 henum.1).sublist (List.take_sublist _ _)
  · intro b hb
    exact (henum.2 b).1 (hperm.subset (List.mem_of_mem_take hb))
  · intro b hb c hc hnot
    have hc2 : c ∈ sortBlamersByCount counts order := hperm.symm.subset ((henum.2 c).2 hc)
    rw [← List.take_append_drop N (sortBlamersByCount counts order)] at hc2
    rcases List.mem_append.1 hc2 with h | h
    · exact absurd h hnot
    · exact top_ge_rest counts _ (sort_descending counts order) N b hb c h
  · intro order4 h4
    apply example_leaderboard
    rw [List.mem_permutations']
    exact (List.perm_ext_iff_of_nodup h4.1 (by decide)).2 (fun b => by
      rw [h4.2 b]; simp [keys, exampleCounts])

/-- Witness for C2: the example table enumerated as dave, bob, carol, alice, with a limit of three. -/
theorem leaderboard_lists_top_blamers_witness :
    Enumerates ["dave", "bob", "carol", "alice"] exampleCounts ∧
    3 ≤ (keys exampleCounts).dedup.length ∧
    ∃ listed : List String,
      writeTopBlamer 3 exampleCounts ["dave", "bob", "carol", "alice"]
        = (List.range 3).map (fun i => rankLine i (listed.getD i "")) ∧
      listed.length = 3 ∧ listed.Nodup :=
  ⟨by decide, by decide,
   match (leaderboard_lists_top_blamers exampleCounts ["dave", "bob", "carol", "alice"] 3
      (by decide) (by decide)).1 with
   | ⟨listed, _, hw, hl, hn, _⟩ => ⟨listed, hw, hl, hn⟩⟩

/-- C3: for a table with `k` distinct blamers and every limit `N`,
`writeTopBlamer` writes exactly `min N k` lines, and line `i` (counting from
zero) is the rank `i + 1`, a dot, a space, element `i` of the result of
`sortBlamersByCount` and a newline; so with `N = 5` and two distinct blamers
exactly two lines are written, ranked 1 and 2. -/
theorem writeTopBlamer_writes_min_lines (counts : Table) (order : List String) (N : Nat)
    (henum : Enumerates order counts) :
    (writeTopBlamer N counts order).length = min N (keys counts).dedup.length ∧
    (∀ i : Nat, i < min N (keys counts).dedup.length →
      (writeTopBlamer N counts order).getD i ""
        = toString (i + 1) ++ ". " ++ (sortBlamersByCount counts order).getD i "" ++ "\n") ∧
    ((keys counts).dedup.length = 2 →
      writeTopBlamer 5 counts order
        = ["1. " ++ (sortBlamersByCount counts order).getD 0 "" ++ "\n",
           "2. " ++ (sortBlamersByCount counts order).getD 1 "" ++ "\n"]) := by
  have hk := enumerates_length order counts henum
  refine ⟨?_, ?_, ?_⟩
  · simp [writeTopBlamer_eq, hk]
  · intro i hi
    rw [writeTopBlamer_eq, hk]
    simp [List.getD_eq_getElem?_getD, hi, rankLine]
  · intro h2
    rw [writeTopBlamer_eq, hk, h2]
    rfl

/-- Witness for C3: two blamers and the default limit of five. -/
theorem writeTopBlamer_writes_min_lines_witness :
    Enumerates ["bob", "alice"] [("alice", 1), ("bob", 2)] ∧
    (writeTopBlamer topTodoBlamer [("alice", 1), ("bob", 2)] ["bob", "alice"]).length
      = min topTodoBlamer (keys [("alice", 1), ("bob", 2)]).dedup.length :=
  ⟨by decide,
   (writeTopBlamer_writes_min_lines [("alice", 1), ("bob", 2)] ["bob", "alice"]
     topTodoBlamer (by decide)).1⟩

/-- C4, counterexample: with counts a 1, b 1, c 2 enumerated as a, b, c, the
blamers a and b tie and a is enumerated before b, yet the result is c, b, a:
b comes before a. -/
theorem sort_reorders_ties :
    Enumerates ["a", "b", "c"] tieCounts ∧
    getCount tieCounts "a" = getCount tieCounts "b" ∧
    Before ["a", "b", "c"] "a" "b" ∧
    sortBlamersByCount tieCounts ["a", "b", "c"] = ["c", "b", "a"] ∧
    ¬ Before (sortBlamersByCount tieCounts ["a", "b", "c"]) "a" "b" := by
  decide

/-- C4, amended: the result of `sortBlamersByCount` is a rearrangement of the
enumerated blamers in descending count order in which a blamer `a` enumerated
before a blamer `b` still comes before `b` whenever no blamer enumerated after
`a` has a count greater than that of `a`, whether `a` and `b` tie or not.  So
under every enumeration two blamers that tie at the highest count keep the
order in which they were enumerated, and an enumeration that is already
descending is returned unchanged. -/
theorem sort_keeps_ties_not_overtaken (counts : Table) (order : List String)
    (henum : Enumerates order counts) :
    (sortBlamersByCount counts order).Perm order ∧
    Descending counts (sortBlamersByCount counts order) ∧
    (∀ a b : String, Before order a b →
      (∀ z ∈ order.drop (order.indexOf a + 1), getCount counts z ≤ getCount counts a) →
      Before (sortBlamersByCount counts order) a b) ∧
    (∀ a b : String, getCount counts a = getCount counts b → Before order a b →
      (∀ z ∈ order, getCount counts z ≤ getCount counts a) →
      Before (sortBlamersByCount counts order) a b) ∧
    (Descending counts order → sortBlamersByCount counts order = order) := by
  refine ⟨sort_perm counts order, sort_descending counts order, ?_, ?_,
    sort_of_descending counts order⟩
  · intro a b hbefore hmax
    exact sort_keeps_before counts order henum.1 a b hbefore hmax
  · intro a b _ hbefore hmax
    exact sort_keeps_before counts order henum.1 a b hbefore
      (fun z hz => hmax z (List.mem_of_mem_drop hz))

/-- Witness for C4, amended: dave is enumerated first and moves to the end,
while alice and carol, who tie at the highest count, keep their order. -/
theorem sort_keeps_ties_not_overtaken_witness :
    Enumerates ["dave", "alice", "bob", "carol"] exampleCounts ∧
    getCount exampleCounts "alice" = getCount exampleCounts "carol" ∧
    Before ["dave", "alice", "bob", "carol"] "alice" "carol" ∧
    (∀ z ∈ ["dave", "alice", "bob", "carol"], getCount exampleCounts z
      ≤ getCount exampleCounts "alice") ∧
    sortBlamersByCount exampleCounts ["dave", "alice", "bob", "carol"]
      = ["alice", "carol", "bob", "dave"] ∧
    Before (sortBlamersByCount exampleCounts ["dave", "alice", "bob", "carol"])
      "alice" "carol" :=
  ⟨by decide, by decide, by decide, by decide, by decide,
   (sort_keeps_ties_not_overtaken exampleCounts ["dave", "alice", "bob", "carol"]
     (by decide)).2.2.2.1 "alice" "carol" (by decide) (by decide) (by decide)⟩

/-- C5: starting from the empty tables, after `processFile` has handled any
sequence of file contents, the sum of all TODO counts is the total number of
matches in those contents whose kind is `TODO` or `todo`, and the sum of all
FIXME counts is the total number of matches whose kind is `FIXME` or `fixme`. -/
theorem total_counts_eq_number_of_matches (contents : List String) :
    total (processAll Tables.empty contents).todoCounts
        = (contents.map (fun c => (FindAllStringSubmatch c).countP isTodo)).sum ∧
    total (processAll Tables.empty contents).fixmeCounts
        = (contents.map (fun c => (FindAllStringSubmatch c).countP isFixme)).sum := by
  have h := processAll_total contents Tables.empty
  simpa [Tables.empty, total] using h

/-- C6: for every list of matches whose kinds are among the four the pattern
captures, the counting loop raises the TODO count of every blamer `b` by the
number of matches of `b` with kind `TODO` or `todo` and the FIXME count of `b`
by the number of matches of `b` with kind `FIXME` or `fixme`, so no other count
changes; every list `FindAllStringSubmatch` returns is such a list; and the
file with `// TODO(alice): fix this` and `// todo(alice): another one` gives
alice a TODO count of 2 and no FIXME entry. -/
theorem counting_loop_adds_matches_per_blamer (st : Tables) (found : List Submatch)
    (hk : ∀ m ∈ found, m.kind ∈ knownKinds) (b : String) :
    (getCount (countMatches st found).todoCounts b
        = getCount st.todoCounts b + found.countP (fun m => isTodo m && m.blamer = b)) ∧
    (getCount (countMatches st found).fixmeCounts b
        = getCount st.fixmeCounts b + found.countP (fun m => isFixme m && m.blamer = b)) ∧
    (∀ fileContent : String, ∀ m ∈ FindAllStringSubmatch fileContent, m.kind ∈ knownKinds) ∧
    getCount (processFile (.ok aliceFile) Tables.empty).1.todoCounts "alice" = 2 ∧
    "alice" ∉ keys (processFile (.ok aliceFile) Tables.empty).1.fixmeCounts := by
  refine ⟨(countMatches_getCount found st hk b).1, (countMatches_getCount found st hk b).2,
    FindAllStringSubmatch_known, by decide, by decide⟩

/-- Witness for C6: the matches of the case-folding example file. -/
theorem counting_loop_adds_matches_per_blamer_witness :
    (∀ m ∈ FindAllStringSubmatch aliceFile, m.kind ∈ knownKinds) ∧
    getCount (countMatches Tables.empty (FindAllStringSubmatch aliceFile)).todoCounts "alice"
      = getCount Tables.empty.todoCounts "alice" +
        (FindAllStringSubmatch aliceFile).countP (fun m => isTodo m && m.blamer = "alice") :=
  ⟨by decide,
   (counting_loop_adds_matches_per_blamer Tables.empty (FindAllStringSubmatch aliceFile)
     (by decide) "alice").1⟩

/-- C7: on a tree in which every directory can be listed and every file can be
read, `extractComments` returns no error and leaves the tables that
`processFile` produces from exactly the files, at any depth, whose name ends
with `.rs`; a non-directory whose name does not end with `.rs` changes nothing,
whatever reading it returns; and a file `a/b/file.rs` below the root is
counted like a file `file.rs` directly in the root with the same content. -/
theorem extractComments_counts_exactly_code_files
    (listing : Except GoError (List Entry)) (st : Tables) (h : Readable listing) :
    extractComments listing st = (processAll st (codeFiles listing), none) ∧
    (∀ (name : String) (read : Except GoError String) (rest : List Entry) (st1 : Tables),
      HasSuffix name codeFileSuffix = false →
      extractLoop (.file name read :: rest) st1 = extractLoop rest st1) ∧
    (∀ (fileContent : String) (st1 : Tables),
      extractComments
          (.ok [.dir "a" (.ok [.dir "b" (.ok [.file "file.rs" (.ok fileContent)])])]) st1
        = extractComments (.ok [.file "file.rs" (.ok fileContent)]) st1) := by
  refine ⟨?_, ?_, ?_⟩
  · rw [extractComments_eq_runVisits, visits_of_readable listing h, runVisits_ok]
  · intro name read rest st1 hs
    simp [extractLoop, extractEntry, hs]
  · intro c st1
    simp only [extractComments_eq_runVisits]
    simp [visits, visitsLoop, visitsEntry]

/-- Witness for C7: the sample tree, in which everything can be listed and read. -/
theorem extractComments_counts_exactly_code_files_witness :
    Readable sampleTree ∧
    extractComments sampleTree Tables.empty
      = (processAll Tables.empty (codeFiles sampleTree), none) :=
  ⟨by simp [Readable, ReadableLoop, ReadableEntry, sampleTree],
   (extractComments_counts_exactly_code_files sampleTree Tables.empty
     (by simp [Readable, ReadableLoop, ReadableEntry, sampleTree])).1⟩

/-- C8: `extractComments` fails fast.  Among the visits of the depth-first walk
(every directory listing that fails and every read of a file whose name ends
with `.rs`), it returns an error exactly when some visit fails, the error is
that of the first failing visit, and the tables are those `processFile`
produces from the files read before that visit: nothing after it is
processed. -/
theorem extractComments_fails_fast
    (listing : Except GoError (List Entry)) (st : Tables) :
    ((extractComments listing st).2.isSome ↔ ∃ err, Except.error err ∈ visits listing) ∧
    (extractComments listing st).2 = firstFailure (visits listing) ∧
    (extractComments listing st).1
      = processAll st (readBeforeFailure (visits listing)) := by
  rw [extractComments_eq_runVisits]
  exact ⟨firstFailure_isSome _, rfl, rfl⟩

/-- C9, counterexample: for the TODO table a 1, b 1 and an empty FIXME table,
a run whose iteration yields a, b and a run whose iteration yields b, a write
different texts to both files. -/
theorem reports_depend_on_iteration_order :
    Enumerates ["a", "b"] [("a", 1), ("b", 1)] ∧
    Enumerates ["b", "a"] [("a", 1), ("b", 1)] ∧
    fileText (writeTodoCounts ⟨[("a", 1), ("b", 1)], []⟩ ["a", "b"] [])
      ≠ fileText (writeTodoCounts ⟨[("a", 1), ("b", 1)], []⟩ ["b", "a"] []) ∧
    fileText (writeTopTodoBlamer ⟨[("a", 1), ("b", 1)], []⟩ ["a", "b"] [])
      ≠ fileText (writeTopTodoBlamer ⟨[("a", 1), ("b", 1)], []⟩ ["b", "a"] []) := by
  decide

/-- C9, amended: two runs on the same tables, whatever order each iteration
yields the blamers in, write to `todo_counts.txt` the same chunks up to the
order of the blamer lines within each section, and write to
`top_todo_blamer.txt` exactly the same chunks, hence the same text, when no two
blamers of a table have equal counts. -/
theorem reports_equal_up_to_tie_order (st : Tables) (todo1 todo2 fixme1 fixme2 : List String)
    (ht1 : Enumerates todo1 st.todoCounts) (ht2 : Enumerates todo2 st.todoCounts)
    (hf1 : Enumerates fixme1 st.fixmeCounts) (hf2 : Enumerates fixme2 st.fixmeCounts) :
    (writeCounts st.todoCounts todo1).Perm (writeCounts st.todoCounts todo2) ∧
    (writeCounts st.fixmeCounts fixme1).Perm (writeCounts st.fixmeCounts fixme2) ∧
    (writeTodoCounts st todo1 fixme1).Perm (writeTodoCounts st todo2 fixme2) ∧
    (DistinctCounts st.todoCounts → DistinctCounts st.fixmeCounts →
      writeTopTodoBlamer st todo1 fixme1 = writeTopTodoBlamer st todo2 fixme2 ∧
      fileText (writeTopTodoBlamer st todo1 fixme1)
        = fileText (writeTopTodoBlamer st todo2 fixme2)) := by
  have hp1 := enumerates_perm todo1 todo2 _ ht1 ht2
  have hp2 := enumerates_perm fixme1 fixme2 _ hf1 hf2
  have hw1 : (writeCounts st.todoCounts todo1).Perm (writeCounts st.todoCounts todo2) :=
    (hp1.map _).append_right _
  have hw2 : (writeCounts st.fixmeCounts fixme1).Perm (writeCounts st.fixmeCounts fixme2) :=
    (hp2.map _).append_right _
  refine ⟨hw1, hw2, ?_, ?_⟩
  · unfold writeTodoCounts
    exact (((List.Perm.refl _).append hw1).append (List.Perm.refl _)).append hw2
  · intro hd1 hd2
    have e1 : writeTopBlamer topTodoBlamer st.todoCounts todo1
        = writeTopBlamer topTodoBlamer st.todoCounts todo2 := by
      rw [writeTopBlamer_eq, writeTopBlamer_eq, hp1.length_eq,
        sort_unique_of_distinct _ todo1 todo2 ht1 ht2 hd1]
    have e2 : writeTopBlamer topTodoBlamer st.fixmeCounts fixme1
        = writeTopBlamer topTodoBlamer st.fixmeCounts fixme2 := by
      rw [writeTopBlamer_eq, writeTopBlamer_eq, hp2.length_eq,
        sort_unique_of_distinct _ fixme1 fixme2 hf1 hf2 hd2]
    have e : writeTopTodoBlamer st todo1 fixme1 = writeTopTodoBlamer st todo2 fixme2 := by
      unfold writeTopTodoBlamer
      rw [e1, e2]
    exact ⟨e, by rw [e]⟩

/-- Witness for C9, amended: two blamers with different counts, enumerated in both orders. -/
theorem reports_equal_up_to_tie_order_witness :
    Enumerates ["alice", "bob"] [("alice", 2), ("bob", 1)] ∧
    Enumerates ["bob", "alice"] [("alice", 2), ("bob", 1)] ∧
    Enumerates [] [] ∧
    DistinctCounts [("alice", 2), ("bob", 1)] ∧ DistinctCounts [] ∧
    (writeTodoCounts ⟨[("alice", 2), ("bob", 1)], []⟩ ["alice", "bob"] []).Perm
      (writeTodoCounts ⟨[("alice", 2), ("bob", 1)], []⟩ ["bob", "alice"] []) ∧
    fileText (writeTopTodoBlamer ⟨[("alice", 2), ("bob", 1)], []⟩ ["alice", "bob"] [])
      = fileText (writeTopTodoBlamer ⟨[("alice", 2), ("bob", 1)], []⟩ ["bob", "alice"] []) :=
  ⟨by decide, by decide, by decide, by decide, by decide,
   (reports_equal_up_to_tie_order ⟨[("alice", 2), ("bob", 1)], []⟩
     ["alice", "bob"] ["bob", "alice"] [] []
     (by decide) (by decide) (by decide) (by decide)).2.2.1,
   ((reports_equal_up_to_tie_order ⟨[("alice", 2), ("bob", 1)], []⟩
     ["alice", "bob"] ["bob", "alice"] [] []
     (by decide) (by decide) (by decide) (by decide)).2.2.2 (by decide) (by decide)).2⟩

/-- C10, counterexample: the table that holds blamer a at the largest 64-bit
count satisfies the predicate, and after `processFile` on a file with one
`TODO(a)` the count of a is `-9223372036854775808`, below one. -/
theorem positive_counts_break_on_overflow :
    PositiveCounts64 fullTables.todoCounts ∧ PositiveCounts64 fullTables.fixmeCounts ∧
    getCount64 (processFile64 (.ok "// TODO(a): x\n") fullTables).1.todoCounts "a"
      = -9223372036854775808 ∧
    ¬ PositiveCounts64 (processFile64 (.ok "// TODO(a): x\n") fullTables).1.todoCounts := by
  decide

/-- C10, amended: every key of the TODO table and of the FIXME table has a count
of at least one: this holds for the empty initial tables, a failed read leaves
the tables as they are, and `processFile` preserves it on every file content
whose matches take no count past the largest 64-bit value. -/
theorem positive_counts_invariant_below_overflow :
    (PositiveCounts64 Tables64.empty.todoCounts ∧
      PositiveCounts64 Tables64.empty.fixmeCounts) ∧
    (∀ (st : Tables64) (err : GoError), (processFile64 (.error err) st).1 = st) ∧
    ∀ (st : Tables64) (fileContent : String),
      PositiveCounts64 st.todoCounts → PositiveCounts64 st.fixmeCounts →
      NoOverflow st (FindAllStringSubmatch fileContent) →
      PositiveCounts64 (processFile64 (.ok fileContent) st).1.todoCounts ∧
      PositiveCounts64 (processFile64 (.ok fileContent) st).1.fixmeCounts := by
  refine ⟨⟨by decide, by decide⟩, fun _ _ => rfl, ?_⟩
  intro st fileContent h1 h2 hno
  exact countMatches64_positive _ st (FindAllStringSubmatch_known fileContent) h1 h2 hno

/-- Witness for C10, amended: the case-folding example file processed after a
table that holds bob. -/
theorem positive_counts_invariant_below_overflow_witness :
    NoOverflow ⟨[("bob", 1)], []⟩ (FindAllStringSubmatch aliceFile) ∧
    PositiveCounts64 (processFile64 (.ok aliceFile) ⟨[("bob", 1)], []⟩).1.todoCounts ∧
    PositiveCounts64 (processFile64 (.ok aliceFile) ⟨[("bob", 1)], []⟩).1.fixmeCounts := by
  have hno : NoOverflow ⟨[("bob", 1)], []⟩ (FindAllStringSubmatch aliceFile) := by
    intro b
    have h1 : getCount64 [("bob", 1)] b ≤ 1 := by
      unfold getCount64
      split_ifs <;> simp [getCount64]
    have h2 : getCount64 [] b = 0 := rfl
    have h3 := List.countP_le_length (fun m => isTodo m && m.blamer = b)
      (l := FindAllStringSubmatch aliceFile)
    have h4 := List.countP_le_length (fun m => isFixme m && m.blamer = b)
      (l := FindAllStringSubmatch aliceFile)
    have h5 : (FindAllStringSubmatch aliceFile).length = 2 := by decide
    refine ⟨?_, ?_⟩
    · show getCount64 [("bob", 1)] b + _ ≤ maxInt64
      unfold maxInt64; omega
    · show getCount64 [] b + _ ≤ maxInt64
      unfold maxInt64; omega
  exact ⟨hno, positive_counts_invariant_below_overflow.2.2 ⟨[("bob", 1)], []⟩ aliceFile
    (by decide) (by decide) hno⟩

end CmStat
